import Mathlib

/-!
The coinscope log frame encoder, ordering buffer and log-server connection handler.

A shallow embedding of `shared/includes/logger.hpp` (the generic `g_log<N>`
encoder with its two `g_log_inner` overloads, the packed record structs) and of
the connection handler declared in `logserver/includes/input_cxn.hpp`.

Conventions of the embedding:

* a byte is a natural number; every byte the encoder computes from an integer is
  reduced modulo 256, token bytes are taken as given (a `std::string` holds
  bytes, so a well-formed token has all entries below 256);
* `size_t` arithmetic on lengths of in-memory strings is modelled on `Nat`
  (sizes of objects that exist in memory do not wrap a 64-bit `size_t`); the two
  narrowing conversions of the source, `uint8_t n = N` and `(uint32_t)(len-4)`,
  are explicit `% 2^8` and `% 2^32`;
* `std::copy` into a `wrapped_buffer` is fallible: a copy that would write at or
  beyond `allocated()` yields `none`;
* the global variables `g_log_buffer`, `g_log_cursor`, `g_log_store` and the
  `std::cerr` stream are the fields of an explicit state record.
-/

namespace Coinscope

/-! ## Bytes and network byte order -/

/-- A byte of memory (`uint8_t`), as a natural number. -/
abbrev Byte := Nat

/-- The `w` bytes, most significant first, of the unsigned `8*w`-bit integer
`x % 2^(8*w)`: what `hton` followed by a byte-wise copy of the object puts in
memory. -/
def be_bytes : Nat → Nat → List Byte
  | 0, _ => []
  | w + 1, x => be_bytes w (x / 256) ++ [x % 256]

/-- The unsigned integer a big-endian byte sequence denotes. -/
def be_value (bs : List Byte) : Nat :=
  bs.foldl (fun acc b => acc * 256 + b) 0

/-- `hton((uint32_t) x)` laid out in memory. -/
def hton32 (x : Nat) : List Byte := be_bytes 4 (x % 2 ^ 32)

/-- `hton((uint64_t) x)` laid out in memory. -/
def hton64 (x : Nat) : List Byte := be_bytes 8 (x % 2 ^ 64)

/-! ## Reactor time -/

/-- An `ev_tstamp` is a C `double`; a finite double is `mant * 2 ^ exp` for two
integers. -/
structure ev_tstamp where
  mant : Int
  exp : Int
deriving DecidableEq

/-- The integer part of a finite double, rounding toward zero (the value the C
conversion to an integer type takes when it is representable). -/
def ev_tstamp.trunc (t : ev_tstamp) : Int :=
  if 0 ≤ t.exp then t.mant * 2 ^ t.exp.toNat
  else Int.tdiv t.mant (2 ^ (-t.exp).toNat)

/-- The conversion `(uint64_t) t`. -/
def ev_tstamp.to_uint64 (t : ev_tstamp) : Nat := t.trunc.toNat % 2 ^ 64

/-! ## `log_type` -/

/-- A `wrapped_buffer<uint8_t>`: the allocated bytes. `allocated()` is the
length of `data`. -/
structure wrapped_buffer where
  data : List Byte
deriving DecidableEq

/-- The accessor `allocated()`. -/
def wrapped_buffer.allocated (b : wrapped_buffer) : Nat := b.data.length

/-- Modelled from the spec: the constructor `wrapped_buffer<uint8_t>(n)` of
`write_buffer.hpp` (not among the sources), a growable byte container with `n`
allocated bytes. `junk` is the content of the fresh, not yet written bytes. -/
def wrapped_buffer.create (junk : Byte) (n : Nat) : wrapped_buffer :=
  ⟨List.replicate n junk⟩

/-- Modelled from the spec: `wrapped_buffer::realloc(n)` of `write_buffer.hpp`
(not among the sources): afterwards `allocated()` is `n` and the bytes already
written are kept; new bytes hold `junk`. -/
def wrapped_buffer.realloc (junk : Byte) (b : wrapped_buffer) (n : Nat) : wrapped_buffer :=
  ⟨b.data.take n ++ List.replicate (n - b.data.length) junk⟩

/-- The call `std::copy(src, src + src.length, wbuf.ptr() + off)`: defined only
when every written index is below `allocated()`. -/
def wrapped_buffer.copy_in (b : wrapped_buffer) (off : Nat) (src : List Byte) :
    Option wrapped_buffer :=
  if off + src.length ≤ b.allocated then
    some ⟨b.data.take off ++ src ++ b.data.drop (off + src.length)⟩
  else none

/-! ## `g_log_inner` -/

/-- A stringified argument: the bytes of `oss.str()` after `oss << value`. -/
abbrev Token := List Byte

/-- The two overloads of `g_log_inner(wbuf, len, s, Fargs...)`. With no trailing
argument the single-argument overload is selected: it copies the token and the
terminating NUL of `c_str()` (`str.size() + 1` bytes). Otherwise the variadic
overload streams the token and one space, copies `str.size()` bytes and recurses
on the trailing arguments. Returns the buffer and the updated `len`. -/
def g_log_inner (junk : Byte) (wbuf : wrapped_buffer) (len : Nat) (s : Token) :
    List Token → Option (wrapped_buffer × Nat)
  | [] =>
    let str := s
    let wbuf := if wbuf.allocated < len + str.length + 1
      then wbuf.realloc junk (len + str.length + 1) else wbuf
    match wbuf.copy_in len (str ++ [0]) with
    | none => none
    | some wbuf => some (wbuf, len + (str.length + 1))
  | f :: Fargs =>
    let str := s ++ [32]
    let wbuf := if wbuf.allocated < len + str.length
      then wbuf.realloc junk (len + str.length) else wbuf
    match wbuf.copy_in len str with
    | none => none
    | some wbuf => g_log_inner junk wbuf (len + str.length) f Fargs

/-! ## The log sink and the global state -/

/-- A `log_buffer`: the pending-write queue, one entry per `append`. -/
structure log_buffer where
  write_queue : List (List Byte)
deriving DecidableEq

/-- Modelled from the spec: `log_buffer::append(ptr, len)` (defined in
`logger.cpp`, not among the sources) enqueues the byte range `ptr[0..len)` at
the tail of the pending-write queue. -/
def log_buffer.append (lb : log_buffer) (ptr : wrapped_buffer) (len : Nat) : log_buffer :=
  ⟨lb.write_queue ++ [ptr.data.take len]⟩

/-- The process-wide state `g_log` reads and writes. -/
structure LogState where
  g_log_buffer : Option log_buffer
  g_log_cursor : Nat
  g_log_store : wrapped_buffer
  cerr : List Byte
deriving DecidableEq

/-- The string literal `"<<CONSOLE FALLBACK>> "`. -/
def console_fallback : List Byte :=
  [60, 60, 67, 79, 78, 83, 79, 76, 69, 32, 70, 65, 76, 76, 66, 65, 67, 75, 62, 62, 32]

/-- The C string starting at `ptr + off`: the bytes up to the first NUL. -/
def c_string_at (mem : List Byte) (off : Nat) : List Byte :=
  (mem.drop off).takeWhile (fun b => b != 0)

/-! ## `g_log` -/

/-- The first part of `g_log<N>(val, Fargs...)`: the scratch buffer of 128
bytes, the type byte at offset 4, the network-order time at offsets 5..12, and
the tokens from offset `len = 13` on. Returns the buffer and the final `len`. -/
def g_log_scratch (junk : Byte) (N : Int) (now : ev_tstamp) (val : Token) (Fargs : List Token) :
    Option (wrapped_buffer × Nat) :=
  let net_time := hton64 now.to_uint64
  let wbuf := wrapped_buffer.create junk 128
  let n : Byte := (N % 256).toNat
  match wbuf.copy_in 4 [n] with
  | none => none
  | some wbuf =>
    match wbuf.copy_in (4 + 1) net_time with
    | none => none
    | some wbuf =>
      let len := 8 + 1 + 4
      g_log_inner junk wbuf len val Fargs

/-- The template `g_log<N>(val, Fargs...)`, as a transition of the global
state. -/
def g_log (junk : Byte) (N : Int) (now : ev_tstamp) (val : Token) (Fargs : List Token)
    (st : LogState) : Option LogState :=
  match g_log_scratch junk N now val Fargs with
  | none => none
  | some (wbuf, len) =>
    match st.g_log_buffer with
    | some lb =>
      let netlen := hton32 (len - 4)
      match wbuf.copy_in 0 netlen with
      | none => none
      | some wbuf =>
        if st.g_log_cursor > 0 then
          let lb := lb.append st.g_log_store st.g_log_cursor
          let lb := lb.append wbuf len
          some { st with g_log_buffer := some lb, g_log_cursor := 0,
                         g_log_store := wrapped_buffer.create junk 4096 }
        else
          some { st with g_log_buffer := some (lb.append wbuf len) }
    | none =>
      some { st with
        cerr := st.cerr ++ console_fallback ++ c_string_at wbuf.data (1 + 8 + 4) ++ [10] }

/-! ## Reference description of the frame -/

/-- The bytes the token list contributes: tokens separated by one space, the
last one followed by NUL. -/
def payload_bytes (s : Token) : List Token → List Byte
  | [] => s ++ [0]
  | f :: Fargs => s ++ [32] ++ payload_bytes f Fargs

/-- The header bytes after the length slot: the type byte and the time. -/
def header_bytes (N : Int) (now : ev_tstamp) : List Byte :=
  [(N % 256).toNat] ++ hton64 now.to_uint64

/-- The frame `g_log<N>` builds for a sink. -/
def frame_bytes (N : Int) (now : ev_tstamp) (val : Token) (Fargs : List Token) : List Byte :=
  hton32 (9 + (payload_bytes val Fargs).length) ++ header_bytes N now ++ payload_bytes val Fargs

/-- The last byte range appended to the sink, when the call returned and a sink
is registered. -/
def last_append (r : Option LogState) : Option (List Byte) :=
  match r with
  | none => none
  | some st =>
    match st.g_log_buffer with
    | none => none
    | some lb => lb.write_queue.getLast?

/-- The payload grammar as the specification words it: every token, the last
one included, is followed by one space, then a single NUL ends the list. -/
def spaced_payload (val : Token) (Fargs : List Token) : List Byte :=
  ((val :: Fargs).map (fun t => t ++ [32])).flatten ++ [0]

/-! ## Packed record structs -/

/-- A member of a struct declaration: its name, `sizeof` and alignment
requirement of its type. -/
structure Member where
  name : String
  size : Nat
  align : Nat
deriving DecidableEq

/-- The next multiple of `a` at or after `off`. -/
def align_up (off a : Nat) : Nat := (off + (a - 1)) / a * a

/-- The offsets the compiler gives the members of a struct, in declaration
order, starting from `off`: each member is placed at the next offset suitably
aligned for its type, and `__attribute__((packed))` lowers every alignment
requirement to 1. -/
def member_offsets (packed : Bool) : Nat → List Member → List (String × Nat)
  | _, [] => []
  | off, m :: ms =>
    let o := if packed then off else align_up off m.align
    (m.name, o) :: member_offsets packed (o + m.size) ms

/-- The size of the members laid out from offset 0, before tail padding. -/
def members_end (packed : Bool) : Nat → List Member → Nat
  | off, [] => off
  | off, m :: ms =>
    let o := if packed then off else align_up off m.align
    members_end packed (o + m.size) ms

/-- The declaration `struct log_format`. -/
def log_format : List Member :=
  [⟨"source_id", 4, 4⟩, ⟨"type", 1, 1⟩, ⟨"timestamp", 8, 8⟩, ⟨"rest", 0, 1⟩]

/-- The declaration `struct bitcoin_log_format`; `sa` is `sizeof(sockaddr_in)`,
a type of the system headers with 4-byte alignment. The member `header` is a
packed `log_format`. -/
def bitcoin_log_format (sa : Nat) : List Member :=
  [⟨"header", members_end true 0 log_format, 1⟩, ⟨"handle_id", 4, 4⟩, ⟨"update_type", 4, 4⟩,
   ⟨"remote_addr", sa, 4⟩, ⟨"local_addr", sa, 4⟩, ⟨"text_len", 4, 4⟩, ⟨"text", 0, 1⟩]

/-- The declaration `struct bitcoin_msg_log_format`; `pm` is
`sizeof(bitcoin::packed_message)`, a packed struct of `bitcoin.hpp`. -/
def bitcoin_msg_log_format (pm : Nat) : List Member :=
  [⟨"header", members_end true 0 log_format, 1⟩, ⟨"id", 4, 4⟩, ⟨"is_sender", 1, 1⟩,
   ⟨"msg", pm, 1⟩]

/-- The offsets of the members after `header`, counted from the end of
`header`, that is from the first payload byte. -/
def payload_offsets (s : List Member) : List (String × Nat) :=
  ((member_offsets true 0 s).drop 1).map
    (fun p => (p.1, p.2 - members_end true 0 (s.take 1)))

/-- The sum of the sizes of the members declared before position `i`. -/
def widths_before (s : List Member) (i : Nat) : Nat :=
  ((s.take i).map Member.size).sum

/-! ## The connection handler of the log server -/

/-- The two phases of a connection handler (the field `state`). -/
inductive Phase where
  | awaiting_length
  | awaiting_payload
deriving DecidableEq

/-- The class `input_cxn::handler`: the read accumulator, the counter of bytes
still needed, the phase; `alive` is false once `suicide()` has run. -/
structure handler where
  read_queue : List Byte
  to_read : Nat
  state : Phase
  alive : Bool
deriving DecidableEq

/-- A handler as constructed on accept: empty accumulator, awaiting the 4-byte
length prefix. -/
def handler.init : handler := ⟨[], 4, .awaiting_length, true⟩

/-- Received bytes appended to the read accumulator. -/
def handler.push (h : handler) (more : List Byte) : handler :=
  { h with read_queue := h.read_queue ++ more }

/-- The bytes the current phase needs: the fixed 4-byte header while awaiting
the length prefix, `to_read` while awaiting the payload. -/
def handler.needed (h : handler) : Nat :=
  match h.state with
  | .awaiting_length => 4
  | .awaiting_payload => h.to_read

/-- Modelled from the spec: one round of the state machine of
`handler::io_cb` (defined in `input_cxn.cpp`, not among the sources). With fewer
bytes than the phase needs the machine does not move (`none`). Awaiting the
length prefix, it consumes the 4-byte big-endian length, sets `to_read` to it
and awaits the payload; a zero length goes back to awaiting a length prefix at
once. Awaiting the payload, it extracts exactly `to_read` bytes as one frame,
dispatches it and awaits a length prefix again. The specification does not say
whether a zero-length frame is dispatched to the consumer: `dispatch_empty`
decides it. The second component is the frame dispatched in this round. -/
def handler.step (dispatch_empty : Bool) (h : handler) : Option (handler × Option (List Byte)) :=
  if h.read_queue.length < h.needed then none
  else
    match h.state with
    | .awaiting_length =>
      let n := be_value (h.read_queue.take 4)
      if n = 0 then
        some ({ h with read_queue := h.read_queue.drop 4, to_read := 4,
                       state := .awaiting_length },
              if dispatch_empty then some [] else none)
      else
        some ({ h with read_queue := h.read_queue.drop 4, to_read := n,
                       state := .awaiting_payload }, none)
    | .awaiting_payload =>
      some ({ h with read_queue := h.read_queue.drop h.to_read, to_read := 4,
                     state := .awaiting_length },
            some (h.read_queue.take h.to_read))

/-- Modelled from the spec: the loop of `handler::io_cb` that advances the state
machine while the accumulator holds the bytes the current phase needs, with the
frames dispatched on the way in order. Every round but a zero-length payload
round consumes at least one byte and no two of those follow each other, so
`fuel` rounds with `fuel` above twice the accumulator size run the loop to its
end. -/
def handler.drain (dispatch_empty : Bool) : Nat → handler → handler × List (List Byte)
  | 0, h => (h, [])
  | fuel + 1, h =>
    match h.step dispatch_empty with
    | none => (h, [])
    | some (h1, out) =>
      let r := handler.drain dispatch_empty fuel h1
      (r.1, out.toList ++ r.2)

/-- A bound on the rounds the state machine can still make: two per byte in the
accumulator, one more when a payload is awaited. -/
def handler.rounds (h : handler) : Nat :=
  2 * h.read_queue.length + (if h.state = .awaiting_payload then 1 else 0)

/-- The loop of `handler::io_cb` run to its end. -/
def handler.run (dispatch_empty : Bool) (h : handler) : handler × List (List Byte) :=
  h.drain dispatch_empty (h.rounds + 1)

/-- The result of one non-blocking read: the bytes read (none at all when `read`
returned 0), a would-block condition, or another error. -/
inductive read_result where
  | bytes (bs : List Byte)
  | would_block
  | error
deriving DecidableEq

/-- Modelled from the spec: `handler::io_cb` (defined in `input_cxn.cpp`, not
among the sources). One read; 0 bytes or an error other than would-block
terminate the handler, would-block is a no-op, and received bytes are appended
to the accumulator before the state machine is advanced. A terminated handler is
not invoked again. Returns the handler and the frames dispatched. -/
def handler.io_cb (dispatch_empty : Bool) (h : handler) (r : read_result) :
    handler × List (List Byte) :=
  if h.alive then
    match r with
    | .bytes [] => ({ h with alive := false }, [])
    | .bytes (b :: bs) =>
      let h1 := h.push (b :: bs)
      h1.drain dispatch_empty (2 * h1.read_queue.length + 2)
    | .would_block => (h, [])
    | .error => ({ h with alive := false }, [])
  else (h, [])

/-- A handler fed a sequence of chunks, one per readiness event; the frames
dispatched, in order. -/
def handler.feed (dispatch_empty : Bool) : handler → List (List Byte) → handler × List (List Byte)
  | h, [] => (h, [])
  | h, c :: cs =>
    let r1 := h.io_cb dispatch_empty (.bytes c)
    let r2 := handler.feed dispatch_empty r1.1 cs
    (r2.1, r1.2 ++ r2.2)

/-- The byte stream of a sequence of frames, each behind its 4-byte big-endian
length. -/
def frame_stream (frames : List (List Byte)) : List Byte :=
  (frames.map (fun f => hton32 f.length ++ f)).flatten

/-- The frames the consumer is handed for a stream of `frames`: all of them, or
all but the empty ones when zero-length frames are not dispatched. -/
def dispatched (dispatch_empty : Bool) (frames : List (List Byte)) : List (List Byte) :=
  if dispatch_empty then frames else frames.filter (fun f => !f.isEmpty)

/-! ## Lemmas on bytes -/

theorem be_bytes_length (w x : Nat) : (be_bytes w x).length = w := by
  induction w generalizing x with
  | zero => rfl
  | succ w ih => simp [be_bytes, ih]

theorem be_value_append_singleton (bs : List Byte) (b : Byte) :
    be_value (bs ++ [b]) = be_value bs * 256 + b := by
  simp [be_value, List.foldl_append]

theorem be_value_be_bytes (w x : Nat) : be_value (be_bytes w x) = x % 256 ^ w := by
  induction w generalizing x with
  | zero => simp [be_bytes, be_value, Nat.mod_one]
  | succ w ih =>
    rw [be_bytes, be_value_append_singleton, ih, pow_succ, Nat.mul_comm (256 ^ w) 256,
      Nat.mod_mul]
    omega

/-! ## The integer part of a time -/

/-- The model of the conversion to an integer is the integer part: for a
non-negative time it is the largest integer not above `mant * 2 ^ exp`. -/
theorem trunc_is_integer_part (t : ev_tstamp) (h : 0 ≤ t.mant) :
    (t.trunc : ℚ) ≤ (t.mant : ℚ) * (2 : ℚ) ^ t.exp
      ∧ (t.mant : ℚ) * (2 : ℚ) ^ t.exp < (t.trunc : ℚ) + 1 := by
  unfold ev_tstamp.trunc
  by_cases he : 0 ≤ t.exp
  · rw [if_pos he]
    have e : (2 : ℚ) ^ t.exp = (2 : ℚ) ^ t.exp.toNat := by
      conv_lhs => rw [← Int.toNat_of_nonneg he]
      exact zpow_natCast 2 _
    rw [e]
    push_cast
    exact ⟨le_refl _, by linarith⟩
  · rw [if_neg he]
    have hk : t.exp = -((-t.exp).toNat : Int) := by
      rw [Int.toNat_of_nonneg (by omega)]; omega
    have e : (2 : ℚ) ^ t.exp = ((2 : ℚ) ^ (-t.exp).toNat)⁻¹ := by
      conv_lhs => rw [hk]
      rw [zpow_neg, zpow_natCast]
    rw [e]
    set k := (-t.exp).toNat
    have hpos : (0 : Int) < 2 ^ k := by positivity
    have hposq : (0 : ℚ) < 2 ^ k := by positivity
    have hd : Int.tdiv t.mant (2 ^ k) = t.mant / 2 ^ k := Int.tdiv_eq_ediv h (le_of_lt hpos)
    rw [hd]
    have h1 : t.mant / 2 ^ k * 2 ^ k ≤ t.mant := Int.ediv_mul_le _ (ne_of_gt hpos)
    have h2 : t.mant < (t.mant / 2 ^ k + 1) * 2 ^ k := Int.lt_ediv_add_one_mul_self _ hpos
    have h1q : ((t.mant / 2 ^ k : Int) : ℚ) * 2 ^ k ≤ t.mant := by exact_mod_cast h1
    have h2q : (t.mant : ℚ) < (((t.mant / 2 ^ k : Int) : ℚ) + 1) * 2 ^ k := by
      exact_mod_cast h2
    rw [← div_eq_mul_inv]
    exact ⟨by rw [le_div_iff₀ hposq]; exact h1q, by rw [div_lt_iff₀ hposq]; exact h2q⟩

/-! ## Lemmas on the scratch buffer -/

theorem copy_in_some (b : wrapped_buffer) (off : Nat) (src : List Byte)
    (h : off + src.length ≤ b.allocated) :
    b.copy_in off src = some ⟨b.data.take off ++ src ++ b.data.drop (off + src.length)⟩ := by
  simp [wrapped_buffer.copy_in, h]

/-- The capacity check of `g_log_inner` followed by its copy: the copy is in
bounds, keeps the first `len` bytes and puts `src` after them. -/
theorem copy_in_grown (junk : Byte) (b : wrapped_buffer) (len : Nat) (src : List Byte)
    (h : len ≤ b.allocated) :
    ∃ w, (if b.allocated < len + src.length then b.realloc junk (len + src.length)
            else b).copy_in len src = some w
      ∧ w.data.take (len + src.length) = b.data.take len ++ src
      ∧ len + src.length ≤ w.allocated
      ∧ b.allocated ≤ w.allocated := by
  have h0 : len ≤ b.data.length := h
  by_cases hlt : b.allocated < len + src.length
  · have hlt0 : b.data.length < len + src.length := hlt
    have hlen : (b.realloc junk (len + src.length)).data.length = len + src.length := by
      simp [wrapped_buffer.realloc]; omega
    have h1 : (b.realloc junk (len + src.length)).data.take len = b.data.take len := by
      simp only [wrapped_buffer.realloc]
      rw [List.take_append_of_le_length (by simp; omega), List.take_take]
      congr 1; omega
    rw [if_pos hlt, copy_in_some _ _ _ (by simp [wrapped_buffer.allocated, hlen])]
    refine ⟨_, rfl, ?_, ?_, ?_⟩
    · simp only [h1]
      rw [List.drop_of_length_le (by omega)]
      simp
    · simp [wrapped_buffer.allocated, List.length_take, hlen]
    · simp [wrapped_buffer.allocated, List.length_take, hlen]; omega
  · have hle : len + src.length ≤ b.data.length := by
      simp only [wrapped_buffer.allocated] at hlt; omega
    rw [if_neg hlt, copy_in_some _ _ _ hle]
    refine ⟨_, rfl, ?_, ?_, ?_⟩
    · have : (List.take len b.data ++ src).length = len + src.length := by
        simp; omega
      simp only
      rw [List.take_left' this]
    · simp [wrapped_buffer.allocated, List.length_take]; omega
    · simp [wrapped_buffer.allocated, List.length_take]; omega

theorem payload_bytes_length_pos (s : Token) (Fargs : List Token) :
    0 < (payload_bytes s Fargs).length := by
  cases Fargs <;> simp [payload_bytes]

/-- What `g_log_inner` does to the buffer: every copy is in bounds, the first
`len` bytes are kept, the tokens follow them, and the final `len` is within the
allocation. -/
theorem g_log_inner_spec (junk : Byte) (Fargs : List Token) :
    ∀ (s : Token) (wbuf : wrapped_buffer) (len : Nat), len ≤ wbuf.allocated →
    ∃ w, g_log_inner junk wbuf len s Fargs = some (w, len + (payload_bytes s Fargs).length)
      ∧ w.data.take (len + (payload_bytes s Fargs).length)
          = wbuf.data.take len ++ payload_bytes s Fargs
      ∧ len + (payload_bytes s Fargs).length ≤ w.allocated
      ∧ wbuf.allocated ≤ w.allocated := by
  induction Fargs with
  | nil =>
    intro s wbuf len h
    obtain ⟨w, hw, htake, hcap, hmono⟩ := copy_in_grown junk wbuf len (s ++ [0]) h
    simp only [List.length_append, List.length_singleton, ← Nat.add_assoc] at hw htake hcap
    refine ⟨w, ?_, ?_, ?_, hmono⟩
    · simp only [g_log_inner, hw, payload_bytes, List.length_append, List.length_singleton]
    · simpa [payload_bytes, ← Nat.add_assoc] using htake
    · simpa [payload_bytes, ← Nat.add_assoc] using hcap
  | cons f Fargs ih =>
    intro s wbuf len h
    obtain ⟨w, hw, htake, hcap, hmono⟩ := copy_in_grown junk wbuf len (s ++ [32]) h
    obtain ⟨w2, hw2, htake2, hcap2, hmono2⟩ := ih f w (len + (s ++ [32]).length) hcap
    have hl : len + (payload_bytes s (f :: Fargs)).length
        = len + (s ++ [32]).length + (payload_bytes f Fargs).length := by
      simp [payload_bytes]; omega
    refine ⟨w2, ?_, ?_, ?_, ?_⟩
    · simp only [g_log_inner, hw, hw2, hl]
    · rw [hl, htake2, htake]
      simp [payload_bytes]
    · rw [hl]; exact hcap2
    · exact Nat.le_trans hmono hmono2

theorem hton64_length (x : Nat) : (hton64 x).length = 8 := be_bytes_length _ _

theorem hton32_length (x : Nat) : (hton32 x).length = 4 := be_bytes_length _ _

theorem header_bytes_length (N : Int) (now : ev_tstamp) : (header_bytes N now).length = 9 := by
  simp [header_bytes, hton64_length]

/-- The scratch buffer after the header writes of `g_log`: four untouched bytes,
the type byte, the time. -/
theorem scratch_header (junk : Byte) (N : Int) (now : ev_tstamp) :
    ∃ w1 w2, (wrapped_buffer.create junk 128).copy_in 4 [(N % 256).toNat] = some w1
      ∧ w1.copy_in (4 + 1) (hton64 now.to_uint64) = some w2
      ∧ w2.data.take 13 = List.replicate 4 junk ++ header_bytes N now
      ∧ w2.allocated = 128 := by
  have h8 := hton64_length now.to_uint64
  refine ⟨_, _, copy_in_some _ _ _ (by simp [wrapped_buffer.allocated, wrapped_buffer.create]),
    copy_in_some _ _ _ (by
      simp [wrapped_buffer.allocated, wrapped_buffer.create, h8, List.length_take]), ?_, ?_⟩
  · simp only [wrapped_buffer.create, header_bytes]
    rw [List.take_left' (by simp [h8, List.length_take])]
    simp [List.take_append_eq_append_take, List.take_replicate]
  · simp [wrapped_buffer.allocated, wrapped_buffer.create, h8, List.length_take]

/-- The scratch buffer `g_log` has built when it reaches the test of
`g_log_buffer`: all copies were in bounds, `len` is 13 plus the payload size and
within the allocation, and bytes 4 to `len` are the header and the payload. -/
theorem g_log_scratch_spec (junk : Byte) (N : Int) (now : ev_tstamp) (val : Token)
    (Fargs : List Token) :
    ∃ w, g_log_scratch junk N now val Fargs = some (w, 13 + (payload_bytes val Fargs).length)
      ∧ w.data.take (13 + (payload_bytes val Fargs).length)
          = List.replicate 4 junk ++ header_bytes N now ++ payload_bytes val Fargs
      ∧ 13 + (payload_bytes val Fargs).length ≤ w.allocated
      ∧ 128 ≤ w.allocated := by
  obtain ⟨w1, w2, h1, h2, htake, hcap⟩ := scratch_header junk N now
  obtain ⟨w, hw, htake2, hcap2, hmono⟩ :=
    g_log_inner_spec junk Fargs val w2 13 (by rw [hcap]; decide)
  refine ⟨w, ?_, ?_, hcap2, by rw [← hcap]; exact hmono⟩
  · simp only [g_log_scratch, h1, h2]
    exact hw
  · rw [htake2, htake]

/-- With a sink, `g_log` succeeds and the sink receives the staged bytes (when
the cursor is positive) and then the frame. -/
theorem g_log_sink (junk : Byte) (N : Int) (now : ev_tstamp) (val : Token) (Fargs : List Token)
    (st : LogState) (lb : log_buffer) (hlb : st.g_log_buffer = some lb) :
    g_log junk N now val Fargs st = some
      (if st.g_log_cursor > 0 then
        { st with
          g_log_buffer := some ⟨lb.write_queue ++ [st.g_log_store.data.take st.g_log_cursor]
            ++ [frame_bytes N now val Fargs]⟩
          g_log_cursor := 0
          g_log_store := wrapped_buffer.create junk 4096 }
      else
        { st with g_log_buffer := some ⟨lb.write_queue ++ [frame_bytes N now val Fargs]⟩ }) := by
  obtain ⟨w, hw, htake, hcap, h128⟩ := g_log_scratch_spec junk N now val Fargs
  have h4 := hton32_length (13 + (payload_bytes val Fargs).length - 4)
  have hc : w.copy_in 0 (hton32 (13 + (payload_bytes val Fargs).length - 4))
      = some ⟨w.data.take 0 ++ hton32 (13 + (payload_bytes val Fargs).length - 4)
          ++ w.data.drop (0 + (hton32 (13 + (payload_bytes val Fargs).length - 4)).length)⟩ :=
    copy_in_some _ _ _ (by rw [h4]; omega)
  have hframe : (List.take 0 w.data ++ hton32 (13 + (payload_bytes val Fargs).length - 4)
      ++ w.data.drop (0 + (hton32 (13 + (payload_bytes val Fargs).length - 4)).length)).take
        (13 + (payload_bytes val Fargs).length) = frame_bytes N now val Fargs := by
    have hd : (w.data.take (13 + (payload_bytes val Fargs).length)).drop 4
        = header_bytes N now ++ payload_bytes val Fargs := by
      rw [htake, List.append_assoc, List.drop_left' (by simp)]
    have e : 13 + (payload_bytes val Fargs).length - 4 = 9 + (payload_bytes val Fargs).length := by
      omega
    rw [List.take_zero, List.nil_append, List.take_append_eq_append_take, h4, Nat.zero_add,
      List.take_of_length_le (by rw [h4]; omega), e, List.take_drop,
      show 4 + (9 + (payload_bytes val Fargs).length) = 13 + (payload_bytes val Fargs).length by
        omega, hd, frame_bytes, List.append_assoc]
  simp only [g_log, hw, hlb, hc, log_buffer.append, hframe]
  split <;> simp

theorem takeWhile_append_of_stop {p : Byte → Bool} (xs ys : List Byte)
    (h : ∃ a ∈ xs, p a = false) : (xs ++ ys).takeWhile p = xs.takeWhile p := by
  induction xs with
  | nil => simp at h
  | cons x xs ih =>
    cases hx : p x with
    | false => simp [List.takeWhile, hx]
    | true =>
      have h2 : ∃ a ∈ xs, p a = false := by
        obtain ⟨a, ha, hpa⟩ := h
        rcases List.mem_cons.mp ha with rfl | ha
        · rw [hx] at hpa; cases hpa
        · exact ⟨a, ha, hpa⟩
      simp [List.takeWhile, hx, ih h2]

theorem nul_mem_payload_bytes (s : Token) (Fargs : List Token) :
    0 ∈ payload_bytes s Fargs := by
  induction Fargs generalizing s with
  | nil => simp [payload_bytes]
  | cons f Fargs ih => simp [payload_bytes, ih f]

/-- Without a sink, `g_log` succeeds, leaves the sink pointer, the cursor and the
staging store alone and prints the marker, the C string at offset 13 of the
scratch buffer and a newline; that C string is the payload up to its first
NUL. -/
theorem g_log_no_sink (junk : Byte) (N : Int) (now : ev_tstamp) (val : Token)
    (Fargs : List Token) (st : LogState) (hlb : st.g_log_buffer = none) :
    g_log junk N now val Fargs st = some
      { st with cerr := st.cerr ++ console_fallback
          ++ (payload_bytes val Fargs).takeWhile (fun b => b != 0) ++ [10] } := by
  obtain ⟨w, hw, htake, hcap, h128⟩ := g_log_scratch_spec junk N now val Fargs
  have hsplit : w.data = List.replicate 4 junk ++ header_bytes N now ++ payload_bytes val Fargs
      ++ w.data.drop (13 + (payload_bytes val Fargs).length) := by
    rw [← htake, List.take_append_drop]
  have hstr : c_string_at w.data (1 + 8 + 4)
      = (payload_bytes val Fargs).takeWhile (fun b => b != 0) := by
    unfold c_string_at
    rw [hsplit, List.append_assoc, List.drop_left' (by simp [header_bytes_length])]
    exact takeWhile_append_of_stop _ _ ⟨0, nul_mem_payload_bytes val Fargs, by simp⟩
  simp only [g_log, hw, hlb, hstr]

/-! ## The frame handed to the sink -/

theorem last_append_g_log (junk : Byte) (N : Int) (now : ev_tstamp) (val : Token)
    (Fargs : List Token) (st : LogState) (lb : log_buffer) (hlb : st.g_log_buffer = some lb) :
    last_append (g_log junk N now val Fargs st) = some (frame_bytes N now val Fargs) := by
  rw [g_log_sink junk N now val Fargs st lb hlb]
  split <;> simp [last_append]

theorem payload_bytes_eq_intercalate (val : Token) (Fargs : List Token) :
    payload_bytes val Fargs = List.intercalate [32] (val :: Fargs) ++ [0] := by
  induction Fargs generalizing val with
  | nil => simp [payload_bytes, List.intercalate]
  | cons f Fargs ih =>
    rw [payload_bytes, ih f]
    simp [List.intercalate, List.intersperse]

theorem frame_bytes_length (N : Int) (now : ev_tstamp) (val : Token) (Fargs : List Token) :
    (frame_bytes N now val Fargs).length = 13 + (payload_bytes val Fargs).length := by
  simp [frame_bytes, hton32_length, header_bytes_length]; omega

theorem frame_bytes_take4 (N : Int) (now : ev_tstamp) (val : Token) (Fargs : List Token) :
    (frame_bytes N now val Fargs).take 4 = hton32 (9 + (payload_bytes val Fargs).length) := by
  rw [frame_bytes, List.append_assoc, List.take_left' (hton32_length _)]

theorem frame_bytes_drop13 (N : Int) (now : ev_tstamp) (val : Token) (Fargs : List Token) :
    (frame_bytes N now val Fargs).drop 13 = payload_bytes val Fargs := by
  rw [frame_bytes, List.drop_left' (by simp [hton32_length, header_bytes_length])]

theorem frame_bytes_type (N : Int) (now : ev_tstamp) (val : Token) (Fargs : List Token) :
    (frame_bytes N now val Fargs)[4]? = some (N % 256).toNat := by
  rw [frame_bytes, List.append_assoc, List.getElem?_append_right (by simp [hton32_length])]
  simp [hton32_length, header_bytes]

theorem frame_bytes_time (N : Int) (now : ev_tstamp) (val : Token) (Fargs : List Token) :
    ((frame_bytes N now val Fargs).drop 5).take 8 = hton64 now.to_uint64 := by
  have h : frame_bytes N now val Fargs
      = (hton32 (9 + (payload_bytes val Fargs).length) ++ [(N % 256).toNat])
        ++ (hton64 now.to_uint64 ++ payload_bytes val Fargs) := by
    simp [frame_bytes, header_bytes]
  rw [h, List.drop_left' (by simp [hton32_length]), List.take_left' (hton64_length _)]

theorem takeWhile_append_nul (xs : List Byte) :
    (xs ++ [0]).takeWhile (fun b => b != 0) = xs.takeWhile (fun b => b != 0) := by
  induction xs with
  | nil => simp [List.takeWhile]
  | cons x xs ih =>
    by_cases hx : x = 0
    · simp [List.takeWhile, hx]
    · simp [List.takeWhile, hx, ih]

/-! ## Claims on the generic encoder -/

/-- C1: with a sink registered, `g_log<N>` hands the sink a frame whose first 4
bytes are the big-endian encoding of the number of bytes that follow them
(9 header bytes, the space-joined tokens and the NUL), provided that number is
below 2^32. -/
theorem g_log_length_correct (junk : Byte) (N : Int) (now : ev_tstamp) (val : Token)
    (Fargs : List Token) (st : LogState) (lb : log_buffer)
    (hsink : st.g_log_buffer = some lb)
    (hlen : 9 + (List.intercalate [32] (val :: Fargs)).length + 1 < 2 ^ 32) :
    ∃ frame, last_append (g_log junk N now val Fargs st) = some frame
      ∧ 4 ≤ frame.length
      ∧ (frame.drop 4).length = 9 + (List.intercalate [32] (val :: Fargs)).length + 1
      ∧ frame.take 4 = be_bytes 4 (frame.length - 4)
      ∧ be_value (frame.take 4) = (frame.drop 4).length := by
  have hp : (payload_bytes val Fargs).length
      = (List.intercalate [32] (val :: Fargs)).length + 1 := by
    rw [payload_bytes_eq_intercalate]; simp
  have hl := frame_bytes_length N now val Fargs
  refine ⟨_, last_append_g_log junk N now val Fargs st lb hsink, ?_, ?_, ?_, ?_⟩
  · omega
  · rw [List.length_drop]; omega
  · rw [frame_bytes_take4, hton32, hl,
      show 13 + (payload_bytes val Fargs).length - 4 = 9 + (payload_bytes val Fargs).length by
        omega, Nat.mod_eq_of_lt (by omega)]
  · rw [frame_bytes_take4, hton32, be_value_be_bytes, List.length_drop, hl,
      Nat.mod_eq_of_lt (by omega), Nat.mod_eq_of_lt (by norm_num; omega)]
    omega

/-- Witness of C1: the call `g_log<DEBUG>("hi", "a")` at time 3.5 with an empty
sink queue. -/
theorem g_log_length_correct_witness :
    9 + (List.intercalate [32] ([104, 105] :: [[97]])).length + 1 < 2 ^ 32
    ∧ ∃ frame, last_append (g_log 0 2 ⟨7, -1⟩ [104, 105] [[97]] ⟨some ⟨[]⟩, 0, ⟨[]⟩, []⟩)
        = some frame
      ∧ 4 ≤ frame.length
      ∧ (frame.drop 4).length = 9 + (List.intercalate [32] ([104, 105] :: [[97]])).length + 1
      ∧ frame.take 4 = be_bytes 4 (frame.length - 4)
      ∧ be_value (frame.take 4) = (frame.drop 4).length :=
  ⟨by decide,
    g_log_length_correct 0 2 ⟨7, -1⟩ [104, 105] [[97]] ⟨some ⟨[]⟩, 0, ⟨[]⟩, []⟩ ⟨[]⟩ rfl
      (by decide)⟩

/-- C2: with a sink registered, `g_log<N>` succeeds and appends to the sink
first the staged region (the first `g_log_cursor` bytes of `g_log_store`, as one
append, only when the cursor is positive) and then the new frame, which is the
frame the same call emits with nothing staged; afterwards the cursor is 0. With
a zero cursor the frame is the only append and the staging store is unchanged;
with a positive cursor the store is replaced by a fresh 4096-byte buffer. Hence
when the staged region holds the records `B1` then `B2`, the byte stream of the
sink grows by `B1 ++ B2 ++ frame`. -/
theorem g_log_flush_before_interleave (junk : Byte) (N : Int) (now : ev_tstamp) (val : Token)
    (Fargs : List Token) (st : LogState) (lb : log_buffer)
    (hsink : st.g_log_buffer = some lb) :
    ∃ st1 frame, g_log junk N now val Fargs st = some st1
      ∧ last_append (g_log junk N now val Fargs { st with g_log_cursor := 0 }) = some frame
      ∧ st1.g_log_cursor = 0
      ∧ st1.cerr = st.cerr
      ∧ (0 < st.g_log_cursor →
          st1.g_log_buffer
              = some ⟨lb.write_queue ++ [st.g_log_store.data.take st.g_log_cursor, frame]⟩
            ∧ st1.g_log_store = wrapped_buffer.create junk 4096)
      ∧ (st.g_log_cursor = 0 →
          st1.g_log_buffer = some ⟨lb.write_queue ++ [frame]⟩
            ∧ st1.g_log_store = st.g_log_store)
      ∧ ∀ B1 B2 : List Byte, st.g_log_store.data.take st.g_log_cursor = B1 ++ B2 →
          ∃ lb1, st1.g_log_buffer = some lb1
            ∧ lb1.write_queue.flatten = lb.write_queue.flatten ++ B1 ++ B2 ++ frame := by
  rw [last_append_g_log junk N now val Fargs { st with g_log_cursor := 0 } lb hsink,
    g_log_sink junk N now val Fargs st lb hsink]
  by_cases hc : st.g_log_cursor > 0
  · rw [if_pos hc]
    refine ⟨_, _, rfl, rfl, rfl, rfl, fun _ => ⟨by simp, rfl⟩, fun h0 => absurd h0 (by omega), ?_⟩
    intro B1 B2 hB
    exact ⟨_, rfl, by simp [hB]⟩
  · rw [if_neg hc]
    have h0 : st.g_log_cursor = 0 := by omega
    refine ⟨_, _, rfl, rfl, h0, rfl, fun h => absurd h hc, fun _ => ⟨rfl, rfl⟩, ?_⟩
    intro B1 B2 hB
    rw [h0, List.take_zero] at hB
    have h1 : B1 = [] := (List.append_eq_nil.mp hB.symm).1
    have h2 : B2 = [] := (List.append_eq_nil.mp hB.symm).2
    exact ⟨_, rfl, by simp [h1, h2]⟩

/-- Witness of C2: the staging store holds the records `[1, 2]` and `[3]`
(cursor 3, then unused bytes) when `g_log<CTRL>("x")` is called. -/
theorem g_log_flush_before_interleave_witness :
    (⟨some ⟨[[9]]⟩, 3, ⟨[1, 2, 3, 0, 0]⟩, []⟩ : LogState).g_log_buffer = some ⟨[[9]]⟩
    ∧ ∃ st1 frame, g_log 0 4 ⟨5, 0⟩ [120] [] ⟨some ⟨[[9]]⟩, 3, ⟨[1, 2, 3, 0, 0]⟩, []⟩ = some st1
      ∧ last_append (g_log 0 4 ⟨5, 0⟩ [120] []
          { (⟨some ⟨[[9]]⟩, 3, ⟨[1, 2, 3, 0, 0]⟩, []⟩ : LogState) with g_log_cursor := 0 })
          = some frame
      ∧ st1.g_log_cursor = 0
      ∧ st1.cerr = []
      ∧ (0 < 3 →
          st1.g_log_buffer = some ⟨[[9]] ++ [List.take 3 [1, 2, 3, 0, 0], frame]⟩
            ∧ st1.g_log_store = wrapped_buffer.create 0 4096)
      ∧ ((3 : Nat) = 0 →
          st1.g_log_buffer = some ⟨[[9]] ++ [frame]⟩
            ∧ st1.g_log_store = ⟨[1, 2, 3, 0, 0]⟩)
      ∧ ∀ B1 B2 : List Byte, List.take 3 [1, 2, 3, 0, 0] = B1 ++ B2 →
          ∃ lb1, st1.g_log_buffer = some lb1
            ∧ lb1.write_queue.flatten = [[9]].flatten ++ B1 ++ B2 ++ frame :=
  ⟨rfl, g_log_flush_before_interleave 0 4 ⟨5, 0⟩ [120] []
    ⟨some ⟨[[9]]⟩, 3, ⟨[1, 2, 3, 0, 0]⟩, []⟩ ⟨[[9]]⟩ rfl⟩

/-- C3, the claim refuted: for the one-argument call `g_log<DEBUG>("hi")` the
payload is `hi` and NUL; the grammar of the claim puts a space between the token
and the NUL. -/
theorem spaced_payload_counterexample :
    (last_append (g_log 0 2 ⟨0, 0⟩ [104, 105] [] ⟨some ⟨[]⟩, 0, ⟨[]⟩, []⟩)).map (List.drop 13)
      = some [104, 105, 0]
    ∧ spaced_payload [104, 105] [] = [104, 105, 32, 0]
    ∧ (last_append (g_log 0 2 ⟨0, 0⟩ [104, 105] [] ⟨some ⟨[]⟩, 0, ⟨[]⟩, []⟩)).map (List.drop 13)
      ≠ some (spaced_payload [104, 105] []) := by
  rw [last_append_g_log 0 2 ⟨0, 0⟩ [104, 105] [] ⟨some ⟨[]⟩, 0, ⟨[]⟩, []⟩ ⟨[]⟩ rfl]
  decide

/-- C3, amended: the payload of the frame (everything from offset 13) is the
tokens with exactly one space between consecutive tokens, the last token
followed directly by a single NUL; the one-argument call is the case with no
space at all, the token and the NUL. -/
theorem g_log_payload_grammar (junk : Byte) (N : Int) (now : ev_tstamp) (val : Token)
    (Fargs : List Token) (st : LogState) (lb : log_buffer)
    (hsink : st.g_log_buffer = some lb) :
    ∃ frame, last_append (g_log junk N now val Fargs st) = some frame
      ∧ frame.drop 13 = List.intercalate [32] (val :: Fargs) ++ [0]
      ∧ (Fargs = [] → frame.drop 13 = val ++ [0])
      ∧ ∀ f rest, Fargs = f :: rest →
          frame.drop 13 = val ++ [32] ++ (List.intercalate [32] (f :: rest) ++ [0]) := by
  refine ⟨_, last_append_g_log junk N now val Fargs st lb hsink, ?_, ?_, ?_⟩
  · rw [frame_bytes_drop13, payload_bytes_eq_intercalate]
  · intro h
    rw [frame_bytes_drop13, h, payload_bytes]
  · intro f rest h
    rw [frame_bytes_drop13, h, payload_bytes, payload_bytes_eq_intercalate]

/-- Witness of C3 amended: `g_log<DEBUG>("hi", "a", "bc")`. -/
theorem g_log_payload_grammar_witness :
    (⟨some ⟨[]⟩, 0, ⟨[]⟩, []⟩ : LogState).g_log_buffer = some ⟨[]⟩
    ∧ ∃ frame, last_append (g_log 0 2 ⟨7, -1⟩ [104, 105] [[97], [98, 99]]
          ⟨some ⟨[]⟩, 0, ⟨[]⟩, []⟩) = some frame
      ∧ frame.drop 13 = List.intercalate [32] ([104, 105] :: [[97], [98, 99]]) ++ [0]
      ∧ (([[97], [98, 99]] : List Token) = [] → frame.drop 13 = [104, 105] ++ [0])
      ∧ ∀ f rest, ([[97], [98, 99]] : List Token) = f :: rest →
          frame.drop 13 = [104, 105] ++ [32] ++ (List.intercalate [32] (f :: rest) ++ [0]) :=
  ⟨rfl, g_log_payload_grammar 0 2 ⟨7, -1⟩ [104, 105] [[97], [98, 99]]
    ⟨some ⟨[]⟩, 0, ⟨[]⟩, []⟩ ⟨[]⟩ rfl⟩

/-- C4, the claim refuted: in the frame of `g_log<DEBUG>("hi")` at the time
283686952306183 * 2^8 = 0x0102030405060700 (a double: the mantissa is below
2^53) the byte at offset 8 is a byte of the time, not the type, the 8 bytes from
offset 9 are not the time, and nothing is left from offset 17 on: the frame has
no source_id field. -/
theorem source_id_layout_counterexample :
    last_append (g_log 0 2 ⟨283686952306183, 8⟩ [104, 105] [] ⟨some ⟨[]⟩, 0, ⟨[]⟩, []⟩)
      = some [0, 0, 0, 12, 2, 1, 2, 3, 4, 5, 6, 7, 0, 104, 105, 0]
    ∧ ev_tstamp.to_uint64 ⟨283686952306183, 8⟩ = 0x0102030405060700
    ∧ (283686952306183 : Int) < 2 ^ 53
    ∧ ([0, 0, 0, 12, 2, 1, 2, 3, 4, 5, 6, 7, 0, 104, 105, 0] : List Byte)[8]? ≠ some 2
    ∧ (List.drop 9 ([0, 0, 0, 12, 2, 1, 2, 3, 4, 5, 6, 7, 0, 104, 105, 0] : List Byte)).take 8
        ≠ hton64 0x0102030405060700
    ∧ List.drop 17 ([0, 0, 0, 12, 2, 1, 2, 3, 4, 5, 6, 7, 0, 104, 105, 0] : List Byte) = [] := by
  rw [last_append_g_log 0 2 ⟨283686952306183, 8⟩ [104, 105] [] ⟨some ⟨[]⟩, 0, ⟨[]⟩, []⟩
    ⟨[]⟩ rfl]
  decide

/-- C4, amended: the frame is the 4-byte length, then directly the type byte at
offset 4, the 8-byte time at offsets 5..12 and the payload from offset 13; it
has no source_id field. The declared length (below 2^32) counts the type byte,
the time and the payload. The frame as a whole follows the packed `log_format`
layout with the length in the place of `source_id`: `type` at 4, `timestamp` at
5, `rest` at 13. -/
theorem g_log_header_layout (junk : Byte) (N : Int) (now : ev_tstamp) (val : Token)
    (Fargs : List Token) (st : LogState) (lb : log_buffer)
    (hsink : st.g_log_buffer = some lb)
    (hlen : 9 + (List.intercalate [32] (val :: Fargs)).length + 1 < 2 ^ 32) :
    ∃ frame, last_append (g_log junk N now val Fargs st) = some frame
      ∧ frame = frame.take 4 ++ [(N % 256).toNat] ++ hton64 now.to_uint64
          ++ (List.intercalate [32] (val :: Fargs) ++ [0])
      ∧ (frame.take 4).length = 4
      ∧ frame[4]? = some (N % 256).toNat
      ∧ (frame.drop 5).take 8 = hton64 now.to_uint64
      ∧ (hton64 now.to_uint64).length = 8
      ∧ frame.drop 13 = List.intercalate [32] (val :: Fargs) ++ [0]
      ∧ be_value (frame.take 4) = 1 + 8 + (frame.drop 13).length
      ∧ member_offsets true 0 log_format
          = [("source_id", 0), ("type", 4), ("timestamp", 5), ("rest", 13)] := by
  have hp := payload_bytes_eq_intercalate val Fargs
  have hpl : (payload_bytes val Fargs).length
      = (List.intercalate [32] (val :: Fargs)).length + 1 := by
    rw [hp]; simp
  refine ⟨_, last_append_g_log junk N now val Fargs st lb hsink, ?_, ?_, ?_, ?_, ?_, ?_, ?_, ?_⟩
  · rw [frame_bytes_take4, ← hp]
    simp [frame_bytes, header_bytes]
  · rw [frame_bytes_take4, hton32_length]
  · exact frame_bytes_type N now val Fargs
  · exact frame_bytes_time N now val Fargs
  · exact hton64_length _
  · rw [frame_bytes_drop13, hp]
  · rw [frame_bytes_take4, frame_bytes_drop13, hton32, be_value_be_bytes,
      Nat.mod_eq_of_lt (by omega), Nat.mod_eq_of_lt (by norm_num; omega)]
  · decide

/-- Witness of C4 amended: `g_log<DEBUG>("hi")` at the time
283686952306183 * 2^8 = 0x0102030405060700. -/
theorem g_log_header_layout_witness :
    ((⟨some ⟨[]⟩, 0, ⟨[]⟩, []⟩ : LogState).g_log_buffer = some ⟨[]⟩
      ∧ 9 + (List.intercalate [32] ([104, 105] :: [])).length + 1 < 2 ^ 32)
    ∧ ∃ frame, last_append (g_log 0 2 ⟨283686952306183, 8⟩ [104, 105] []
          ⟨some ⟨[]⟩, 0, ⟨[]⟩, []⟩) = some frame
      ∧ frame = frame.take 4 ++ [((2 : Int) % 256).toNat]
          ++ hton64 (ev_tstamp.to_uint64 ⟨283686952306183, 8⟩)
          ++ (List.intercalate [32] ([104, 105] :: []) ++ [0])
      ∧ (frame.take 4).length = 4
      ∧ frame[4]? = some ((2 : Int) % 256).toNat
      ∧ (frame.drop 5).take 8 = hton64 (ev_tstamp.to_uint64 ⟨283686952306183, 8⟩)
      ∧ (hton64 (ev_tstamp.to_uint64 ⟨283686952306183, 8⟩)).length = 8
      ∧ frame.drop 13 = List.intercalate [32] ([104, 105] :: []) ++ [0]
      ∧ be_value (frame.take 4) = 1 + 8 + (frame.drop 13).length
      ∧ member_offsets true 0 log_format
          = [("source_id", 0), ("type", 4), ("timestamp", 5), ("rest", 13)] :=
  ⟨⟨rfl, by decide⟩, g_log_header_layout 0 2 ⟨283686952306183, 8⟩ [104, 105] []
    ⟨some ⟨[]⟩, 0, ⟨[]⟩, []⟩ ⟨[]⟩ rfl (by decide)⟩

/-- C7: with no sink registered, `g_log<N>` succeeds, leaves the sink pointer,
the staging cursor and the staging store unchanged, so nothing is appended to
any sink, and appends to the diagnostic stream exactly the 21 bytes of the
marker `<<CONSOLE FALLBACK>> `, the text and a newline. The text is the space-joined
tokens up to the first NUL byte; it is what starts at offset 13 of the frame the
same call hands to a sink and runs to the first NUL. -/
theorem g_log_console_fallback (junk : Byte) (N : Int) (now : ev_tstamp) (val : Token)
    (Fargs : List Token) (st : LogState) (hnone : st.g_log_buffer = none) :
    ∃ st1, g_log junk N now val Fargs st = some st1
      ∧ st1.g_log_buffer = none
      ∧ st1.g_log_cursor = st.g_log_cursor
      ∧ st1.g_log_store = st.g_log_store
      ∧ st1.cerr = st.cerr
          ++ [60, 60, 67, 79, 78, 83, 79, 76, 69, 32, 70, 65, 76, 76, 66, 65, 67, 75, 62, 62, 32]
          ++ (List.intercalate [32] (val :: Fargs)).takeWhile (fun b => b != 0) ++ [10]
      ∧ ([60, 60, 67, 79, 78, 83, 79, 76, 69, 32, 70, 65, 76, 76, 66, 65, 67, 75, 62, 62, 32]
            : List Byte)
          = "<<CONSOLE FALLBACK>> ".toList.map Char.toNat
      ∧ ∀ lb, ∃ frame,
          last_append (g_log junk N now val Fargs { st with g_log_buffer := some lb })
            = some frame
          ∧ c_string_at frame 13
            = (List.intercalate [32] (val :: Fargs)).takeWhile (fun b => b != 0) := by
  have ht : (payload_bytes val Fargs).takeWhile (fun b => b != 0)
      = (List.intercalate [32] (val :: Fargs)).takeWhile (fun b => b != 0) := by
    rw [payload_bytes_eq_intercalate, takeWhile_append_nul]
  rw [g_log_no_sink junk N now val Fargs st hnone]
  refine ⟨_, rfl, hnone, rfl, rfl, ?_, by decide, ?_⟩
  · simp only [ht, console_fallback]
  · intro lb
    refine ⟨_, last_append_g_log junk N now val Fargs _ lb rfl, ?_⟩
    rw [c_string_at, frame_bytes_drop13, ht]

/-- Witness of C7: `g_log<ERROR>("hi", "a")` with no sink and two staged
bytes. -/
theorem g_log_console_fallback_witness :
    (⟨none, 2, ⟨[1, 2, 0]⟩, [33]⟩ : LogState).g_log_buffer = none
    ∧ ∃ st1, g_log 0 8 ⟨5, 0⟩ [104, 105] [[97]] ⟨none, 2, ⟨[1, 2, 0]⟩, [33]⟩ = some st1
      ∧ st1.g_log_buffer = none
      ∧ st1.g_log_cursor = 2
      ∧ st1.g_log_store = ⟨[1, 2, 0]⟩
      ∧ st1.cerr = [33]
          ++ [60, 60, 67, 79, 78, 83, 79, 76, 69, 32, 70, 65, 76, 76, 66, 65, 67, 75, 62, 62, 32]
          ++ (List.intercalate [32] ([104, 105] :: [[97]])).takeWhile (fun b => b != 0) ++ [10]
      ∧ ([60, 60, 67, 79, 78, 83, 79, 76, 69, 32, 70, 65, 76, 76, 66, 65, 67, 75, 62, 62, 32]
            : List Byte)
          = "<<CONSOLE FALLBACK>> ".toList.map Char.toNat
      ∧ ∀ lb, ∃ frame,
          last_append (g_log 0 8 ⟨5, 0⟩ [104, 105] [[97]]
              { (⟨none, 2, ⟨[1, 2, 0]⟩, [33]⟩ : LogState) with g_log_buffer := some lb })
            = some frame
          ∧ c_string_at frame 13
            = (List.intercalate [32] ([104, 105] :: [[97]])).takeWhile (fun b => b != 0) :=
  ⟨rfl, g_log_console_fallback 0 8 ⟨5, 0⟩ [104, 105] [[97]] ⟨none, 2, ⟨[1, 2, 0]⟩, [33]⟩ rfl⟩

/-- C10: every copy `g_log` and `g_log_inner` make into the scratch buffer is in
bounds, whatever the tokens and their lengths. The header copies fit the initial
128 bytes and the token copies follow a capacity check, so the encoder part of
`g_log` returns a buffer and a final `len` with `len ≤ allocated()`; started on
any buffer with `len ≤ allocated()`, `g_log_inner` returns with the final `len`
within the allocation, which has not shrunk; and the whole of `g_log`, the copy
of the length into bytes 0..3 included, returns from every state. -/
theorem g_log_scratch_in_bounds (junk : Byte) (N : Int) (now : ev_tstamp) (val : Token)
    (Fargs : List Token) :
    (∃ wbuf len, g_log_scratch junk N now val Fargs = some (wbuf, len)
        ∧ 13 < len ∧ len ≤ wbuf.allocated ∧ 128 ≤ wbuf.allocated)
    ∧ (∀ (wbuf : wrapped_buffer) (len : Nat) (s : Token) (rest : List Token),
        len ≤ wbuf.allocated →
        ∃ wbuf1 len1, g_log_inner junk wbuf len s rest = some (wbuf1, len1)
          ∧ len < len1 ∧ len1 ≤ wbuf1.allocated ∧ wbuf.allocated ≤ wbuf1.allocated)
    ∧ (∀ (wbuf : wrapped_buffer) (n : Nat), n ≤ (wbuf.realloc junk n).allocated)
    ∧ ∀ st : LogState, ∃ st1, g_log junk N now val Fargs st = some st1 := by
  refine ⟨?_, ?_, ?_, ?_⟩
  · obtain ⟨w, hw, _, hcap, h128⟩ := g_log_scratch_spec junk N now val Fargs
    have := payload_bytes_length_pos val Fargs
    exact ⟨w, _, hw, by omega, hcap, h128⟩
  · intro wbuf len s rest h
    obtain ⟨w, hw, _, hcap, hmono⟩ := g_log_inner_spec junk rest s wbuf len h
    have := payload_bytes_length_pos s rest
    exact ⟨w, _, hw, by omega, hcap, hmono⟩
  · intro wbuf n
    simp [wrapped_buffer.allocated, wrapped_buffer.realloc, List.length_take]
    omega
  · intro st
    cases hb : st.g_log_buffer with
    | none => exact ⟨_, g_log_no_sink junk N now val Fargs st hb⟩
    | some lb => exact ⟨_, g_log_sink junk N now val Fargs st lb hb⟩

/-! ## What the frame determines -/

theorem member_offsets_packed (s : List Member) :
    ∀ off : Nat, (member_offsets true off s).map Prod.snd
      = (List.range s.length).map (fun i => off + widths_before s i) := by
  induction s with
  | nil => intro off; rfl
  | cons m ms ih =>
    intro off
    simp only [member_offsets, if_true, List.map_cons, List.length_cons, List.range_succ_eq_map,
      List.map_map, ih]
    refine congrArg₂ _ (by simp [widths_before]) (List.map_congr_left ?_)
    intro i _
    simp [widths_before, Nat.add_assoc]

theorem member_offsets_names (packed : Bool) (s : List Member) :
    ∀ off : Nat, (member_offsets packed off s).map Prod.fst = s.map Member.name := by
  induction s with
  | nil => intro off; rfl
  | cons m ms ih => intro off; simp [member_offsets, ih]

/-- The packed attribute matters to the model: laid out with natural alignment,
`log_format` has `timestamp` at offset 8 and `rest` at 16. -/
theorem log_format_unpacked :
    member_offsets false 0 log_format
      = [("source_id", 0), ("type", 4), ("timestamp", 8), ("rest", 16)] := by
  decide

/-- C9: in the packed structs every member sits at the sum of the widths of the
members declared before it, in declaration order. After the 13-byte common
header the status record has `handle_id` at payload offset 0, `update_type` at
4, `remote_addr` at 8, `local_addr` at 8 + sizeof(sockaddr_in), `text_len`
directly after `local_addr` and `text` 4 bytes later, which is offset 44 for a
16-byte `sockaddr_in`; the wrapped-message record has `id` at payload offset 0,
`is_sender` at 4 and the domain message from 5. -/
theorem packed_record_layout (sa pm : Nat) :
    (∀ s ∈ [log_format, bitcoin_log_format sa, bitcoin_msg_log_format pm],
        (member_offsets true 0 s).map Prod.snd = (List.range s.length).map (widths_before s)
        ∧ (member_offsets true 0 s).map Prod.fst = s.map Member.name)
    ∧ members_end true 0 log_format = 13
    ∧ payload_offsets (bitcoin_log_format sa)
        = [("handle_id", 0), ("update_type", 4), ("remote_addr", 8), ("local_addr", 8 + sa),
           ("text_len", 8 + sa + sa), ("text", 8 + sa + sa + 4)]
    ∧ (bitcoin_log_format sa).map Member.size = [13, 4, 4, sa, sa, 4, 0]
    ∧ payload_offsets (bitcoin_log_format 16)
        = [("handle_id", 0), ("update_type", 4), ("remote_addr", 8), ("local_addr", 24),
           ("text_len", 40), ("text", 44)]
    ∧ payload_offsets (bitcoin_msg_log_format pm)
        = [("id", 0), ("is_sender", 4), ("msg", 5)]
    ∧ (bitcoin_msg_log_format pm).map Member.size = [13, 4, 1, pm] := by
  refine ⟨?_, by decide, ?_, by simp [bitcoin_log_format]; decide, by decide, ?_,
    by simp [bitcoin_msg_log_format]; decide⟩
  · intro s _
    refine ⟨?_, member_offsets_names true s 0⟩
    rw [member_offsets_packed s 0]
    simp
  · have h13 : members_end true 0 log_format = 13 := by decide
    simp [payload_offsets, bitcoin_log_format, member_offsets, members_end, h13]
    omega
  · have h13 : members_end true 0 log_format = 13 := by decide
    simp [payload_offsets, bitcoin_msg_log_format, member_offsets, members_end, h13]

/-! ## The connection handler -/

theorem step_push (de : Bool) (h h1 : handler) (out : Option (List Byte)) (more : List Byte)
    (hs : h.step de = some (h1, out)) :
    (h.push more).step de = some (h1.push more, out) := by
  rcases h with ⟨q, tr, stt, al⟩
  cases stt with
  | awaiting_length =>
    simp only [handler.step, handler.needed, handler.push] at hs ⊢
    by_cases hlt : q.length < 4
    · simp [hlt] at hs
    · have h4 : 4 ≤ q.length := by omega
      have htake : (q ++ more).take 4 = q.take 4 := List.take_append_of_le_length h4
      have hdrop : (q ++ more).drop 4 = q.drop 4 ++ more := List.drop_append_of_le_length h4
      have hlt2 : ¬ (q ++ more).length < 4 := by simp; omega
      rw [if_neg hlt] at hs
      rw [if_neg hlt2, htake, hdrop]
      by_cases hn : be_value (q.take 4) = 0
      · rw [if_pos hn] at hs ⊢
        obtain ⟨rfl, rfl⟩ := Prod.mk.inj (Option.some.inj hs)
        rfl
      · rw [if_neg hn] at hs ⊢
        obtain ⟨rfl, rfl⟩ := Prod.mk.inj (Option.some.inj hs)
        rfl
  | awaiting_payload =>
    simp only [handler.step, handler.needed, handler.push] at hs ⊢
    by_cases hlt : q.length < tr
    · simp [hlt] at hs
    · have h4 : tr ≤ q.length := by omega
      have htake : (q ++ more).take tr = q.take tr := List.take_append_of_le_length h4
      have hdrop : (q ++ more).drop tr = q.drop tr ++ more := List.drop_append_of_le_length h4
      have hlt2 : ¬ (q ++ more).length < tr := by simp; omega
      rw [if_neg hlt] at hs
      rw [if_neg hlt2, htake, hdrop]
      obtain ⟨rfl, rfl⟩ := Prod.mk.inj (Option.some.inj hs)
      rfl

theorem step_rounds (de : Bool) (h h1 : handler) (out : Option (List Byte))
    (hs : h.step de = some (h1, out)) : h1.rounds < h.rounds := by
  rcases h with ⟨q, tr, stt, al⟩
  cases stt with
  | awaiting_length =>
    simp only [handler.step, handler.needed] at hs
    by_cases hlt : q.length < 4
    · simp [hlt] at hs
    · rw [if_neg hlt] at hs
      by_cases hn : be_value (q.take 4) = 0
      · rw [if_pos hn] at hs
        obtain ⟨rfl, rfl⟩ := Prod.mk.inj (Option.some.inj hs)
        simp [handler.rounds]; omega
      · rw [if_neg hn] at hs
        obtain ⟨rfl, rfl⟩ := Prod.mk.inj (Option.some.inj hs)
        simp [handler.rounds]; omega
  | awaiting_payload =>
    simp only [handler.step, handler.needed] at hs
    by_cases hlt : q.length < tr
    · simp [hlt] at hs
    · rw [if_neg hlt] at hs
      obtain ⟨rfl, rfl⟩ := Prod.mk.inj (Option.some.inj hs)
      simp [handler.rounds]; omega

theorem step_alive (de : Bool) (h h1 : handler) (out : Option (List Byte))
    (hs : h.step de = some (h1, out)) : h1.alive = h.alive := by
  rcases h with ⟨q, tr, stt, al⟩
  cases stt with
  | awaiting_length =>
    simp only [handler.step, handler.needed] at hs
    by_cases hlt : q.length < 4
    · simp [hlt] at hs
    · rw [if_neg hlt] at hs
      by_cases hn : be_value (q.take 4) = 0
      · rw [if_pos hn] at hs
        obtain ⟨rfl, rfl⟩ := Prod.mk.inj (Option.some.inj hs)
        rfl
      · rw [if_neg hn] at hs
        obtain ⟨rfl, rfl⟩ := Prod.mk.inj (Option.some.inj hs)
        rfl
  | awaiting_payload =>
    simp only [handler.step, handler.needed] at hs
    by_cases hlt : q.length < tr
    · simp [hlt] at hs
    · rw [if_neg hlt] at hs
      obtain ⟨rfl, rfl⟩ := Prod.mk.inj (Option.some.inj hs)
      rfl

/-- Past the bound `rounds` the amount of fuel does not matter. -/
theorem drain_fuel (de : Bool) (fuel1 : Nat) :
    ∀ (fuel2 : Nat) (h : handler), h.rounds < fuel1 → h.rounds < fuel2 →
      h.drain de fuel1 = h.drain de fuel2 := by
  induction fuel1 with
  | zero => intro fuel2 h h1 _; omega
  | succ n ih =>
    intro fuel2 h h1 h2
    cases fuel2 with
    | zero => omega
    | succ m =>
      simp only [handler.drain]
      cases hs : h.step de with
      | none => rfl
      | some p =>
        obtain ⟨hn, out⟩ := p
        have := step_rounds de h hn out hs
        simp only
        rw [ih m hn (by omega) (by omega)]

theorem run_unfold (de : Bool) (h : handler) :
    h.run de = match h.step de with
      | none => (h, [])
      | some (h1, out) => ((h1.run de).1, out.toList ++ (h1.run de).2) := by
  unfold handler.run
  rw [handler.drain]
  cases hs : h.step de with
  | none => rfl
  | some p =>
    obtain ⟨hn, out⟩ := p
    have := step_rounds de h hn out hs
    simp only
    rw [drain_fuel de h.rounds (hn.rounds + 1) hn (by omega) (by omega)]

theorem run_of_blocked (de : Bool) (h : handler) (hs : h.step de = none) :
    h.run de = (h, []) := by
  rw [run_unfold, hs]

theorem run_facts (de : Bool) (n : Nat) :
    ∀ h : handler, h.rounds < n →
      (h.run de).1.step de = none ∧ (h.run de).1.alive = h.alive := by
  induction n with
  | zero => intro h hn; omega
  | succ n ih =>
    intro h hn
    rw [run_unfold]
    cases hs : h.step de with
    | none => exact ⟨hs, rfl⟩
    | some p =>
      obtain ⟨h1, out⟩ := p
      have hr := step_rounds de h h1 out hs
      obtain ⟨hb, ha⟩ := ih h1 (by omega)
      exact ⟨hb, by rw [ha]; exact step_alive de h h1 out hs⟩

/-- Bytes that arrive later can be appended before or after the loop has run on
the earlier ones: the frames dispatched and the final state are the same. -/
theorem run_push (de : Bool) (more : List Byte) (n : Nat) :
    ∀ h : handler, h.rounds < n →
      (h.push more).run de
        = ((((h.run de).1.push more).run de).1,
            (h.run de).2 ++ (((h.run de).1.push more).run de).2) := by
  induction n with
  | zero => intro h hn; omega
  | succ n ih =>
    intro h hn
    cases hs : h.step de with
    | none => rw [run_of_blocked de h hs]; rfl
    | some p =>
      obtain ⟨h1, out⟩ := p
      have hr := step_rounds de h h1 out hs
      rw [run_unfold de (h.push more), step_push de h h1 out more hs, run_unfold de h, hs]
      simp only
      rw [ih h1 (by omega)]
      simp

theorem push_push (h : handler) (a b : List Byte) : (h.push a).push b = h.push (a ++ b) := by
  simp [handler.push]

theorem push_nil (h : handler) : h.push [] = h := by
  simp [handler.push]

theorem io_cb_bytes (de : Bool) (h : handler) (c : List Byte) (ha : h.alive = true)
    (hc : c ≠ []) : h.io_cb de (.bytes c) = (h.push c).run de := by
  cases c with
  | nil => exact absurd rfl hc
  | cons b bs =>
    simp only [handler.io_cb, ha, if_true, handler.run]
    exact drain_fuel de _ _ _ (by unfold handler.rounds; split <;> omega) (by omega)

/-- Feeding non-empty chunks one per readiness event is running the loop once on
all the bytes. -/
theorem feed_eq_run (de : Bool) (chunks : List (List Byte)) :
    ∀ h : handler, h.alive = true → h.step de = none → (∀ c ∈ chunks, c ≠ []) →
      h.feed de chunks = (h.push chunks.flatten).run de := by
  induction chunks with
  | nil =>
    intro h _ hs _
    rw [List.flatten_nil, push_nil, run_of_blocked de h hs]
    rfl
  | cons c cs ih =>
    intro h ha hs hne
    have hc : c ≠ [] := hne c (List.mem_cons_self _ _)
    obtain ⟨hb1, ha1⟩ := run_facts de ((h.push c).rounds + 1) (h.push c) (by omega)
    have ha2 : ((h.push c).run de).1.alive = true := by
      rw [ha1]; exact ha
    simp only [handler.feed, io_cb_bytes de h c ha hc]
    rw [ih _ ha2 hb1 (fun x hx => hne x (List.mem_cons_of_mem _ hx)), List.flatten_cons,
      ← push_push, run_push de cs.flatten ((h.push c).rounds + 1) (h.push c) (by omega)]

theorem be_value_hton32 (n : Nat) (h : n < 2 ^ 32) : be_value (hton32 n) = n := by
  rw [hton32, be_value_be_bytes, Nat.mod_eq_of_lt h, Nat.mod_eq_of_lt (by norm_num; omega)]

/-- One frame at the head of the accumulator: the loop dispatches it and goes on
with the rest. -/
theorem run_frame (de : Bool) (f rest : List Byte) (hf : f.length < 2 ^ 32) :
    (⟨hton32 f.length ++ f ++ rest, 4, .awaiting_length, true⟩ : handler).run de
      = (((⟨rest, 4, .awaiting_length, true⟩ : handler).run de).1,
          dispatched de [f] ++ ((⟨rest, 4, .awaiting_length, true⟩ : handler).run de).2) := by
  have h4 := hton32_length f.length
  have hlt : ¬ (hton32 f.length ++ f ++ rest).length < 4 := by
    simp [h4]
  have htake : (hton32 f.length ++ f ++ rest).take 4 = hton32 f.length := by
    rw [List.append_assoc, List.take_left' h4]
  have hdrop : (hton32 f.length ++ f ++ rest).drop 4 = f ++ rest := by
    rw [List.append_assoc, List.drop_left' h4]
  rw [run_unfold]
  simp only [handler.step, handler.needed, if_neg hlt, htake, hdrop, be_value_hton32 _ hf]
  by_cases h0 : f.length = 0
  · have hnil : f = [] := List.eq_nil_of_length_eq_zero h0
    subst hnil
    cases de <;> simp [dispatched]
  · have hne : f ≠ [] := fun h => h0 (by rw [h]; rfl)
    rw [if_neg h0]
    simp only
    rw [run_unfold]
    have hlt2 : ¬ (f ++ rest).length < f.length := by simp
    simp only [handler.step, handler.needed, if_neg hlt2, List.take_left' rfl,
      List.drop_left' rfl]
    cases de <;> simp [dispatched, hne]

theorem dispatched_cons (de : Bool) (f : List Byte) (fs : List (List Byte)) :
    dispatched de (f :: fs) = dispatched de [f] ++ dispatched de fs := by
  cases de <;> simp [dispatched, List.filter_cons]
  split <;> simp

/-- A complete stream of frames in the accumulator of a fresh handler: the loop
dispatches the frames in order and ends with an empty accumulator, awaiting a
length prefix. -/
theorem run_frame_stream (de : Bool) (frames : List (List Byte))
    (hf : ∀ f ∈ frames, f.length < 2 ^ 32) :
    (⟨frame_stream frames, 4, .awaiting_length, true⟩ : handler).run de
      = (handler.init, dispatched de frames) := by
  induction frames with
  | nil =>
    rw [run_of_blocked de _ (by simp [handler.step, handler.needed, frame_stream])]
    cases de <;> simp [dispatched, handler.init, frame_stream]
  | cons f fs ih =>
    have e : frame_stream (f :: fs) = hton32 f.length ++ f ++ frame_stream fs := by
      simp [frame_stream]
    rw [e, run_frame de f _ (hf f (List.mem_cons_self _ _)),
      ih (fun x hx => hf x (List.mem_cons_of_mem _ hx)), dispatched_cons de f fs]

/-- C8: a handler fed a byte stream in non-empty chunks, one per readiness
event, dispatches the same frames in the same order as a handler fed the whole
stream in one chunk, whether or not zero-length frames are dispatched; and when
the stream is the concatenation of length-prefixed frames (each shorter than
2^32 bytes) the frames dispatched are those frames, in order. -/
theorem chunked_reassembly (dispatch_empty : Bool) (chunks : List (List Byte))
    (hne : ∀ c ∈ chunks, c ≠ []) :
    (handler.init.feed dispatch_empty chunks).2
        = (handler.init.feed dispatch_empty [chunks.flatten]).2
    ∧ ∀ frames : List (List Byte), (∀ f ∈ frames, f.length < 2 ^ 32) →
        chunks.flatten = frame_stream frames →
        (handler.init.feed dispatch_empty chunks).2 = dispatched dispatch_empty frames := by
  have hblocked : handler.init.step dispatch_empty = none := by
    simp [handler.step, handler.needed, handler.init]
  have hfeed := feed_eq_run dispatch_empty chunks handler.init rfl hblocked hne
  refine ⟨?_, ?_⟩
  · by_cases hnil : chunks.flatten = []
    · rw [hfeed, hnil, push_nil, run_of_blocked _ _ hblocked]
      simp [handler.feed, handler.io_cb, handler.init]
    · rw [hfeed, feed_eq_run dispatch_empty [chunks.flatten] handler.init rfl hblocked
        (by simpa using hnil)]
      simp
  · intro frames hf hs
    rw [hfeed, hs]
    have e : handler.init.push (frame_stream frames)
        = ⟨frame_stream frames, 4, .awaiting_length, true⟩ := by
      simp [handler.push, handler.init]
    rw [e, run_frame_stream dispatch_empty frames hf]

/-- Witness of C8: the frames `[7, 8]`, the empty frame and `[9]`, delivered in
three chunks that cut through a length prefix and a payload. -/
theorem chunked_reassembly_witness :
    (∀ c ∈ ([[0, 0, 0, 2, 7], [8, 0, 0, 0, 0, 0], [0, 0, 1, 9]] : List (List Byte)), c ≠ [])
    ∧ ((handler.init.feed true [[0, 0, 0, 2, 7], [8, 0, 0, 0, 0, 0], [0, 0, 1, 9]]).2
        = (handler.init.feed true
            [([[0, 0, 0, 2, 7], [8, 0, 0, 0, 0, 0], [0, 0, 1, 9]] : List (List Byte)).flatten]).2
      ∧ ∀ frames : List (List Byte), (∀ f ∈ frames, f.length < 2 ^ 32) →
          ([[0, 0, 0, 2, 7], [8, 0, 0, 0, 0, 0], [0, 0, 1, 9]] : List (List Byte)).flatten
            = frame_stream frames →
          (handler.init.feed true [[0, 0, 0, 2, 7], [8, 0, 0, 0, 0, 0], [0, 0, 1, 9]]).2
            = dispatched true frames) :=
  ⟨by decide, chunked_reassembly true [[0, 0, 0, 2, 7], [8, 0, 0, 0, 0, 0], [0, 0, 1, 9]]
    (by decide)⟩

end Coinscope
